import Mathlib

/-
Verification of the maze generator and query engine of the repository
(file src/maze.rs).  The Rust code is shallowly embedded:

* a cell coordinate (Rust: an array of u8 of length DIMS) is a list of
  naturals; theorems carry the length and u8-range side conditions that the
  Rust types enforce;
* the stateful union-find (Rc/RefCell/Weak cells) is embedded as an explicit
  parent array indexed by cell id, with the root chase given explicit fuel
  (the Rust recursion is unbounded; fuel equal to the array length is shown
  sufficient under the generator invariant);
* the rand::Rng argument is embedded as a stream of draws, and the
  BinaryHeap of candidate edges by its observable behaviour: the popped
  sequence is the pushed entries in decreasing lexicographic order of
  (draw, index, dimension) - all entries are distinct, so the order is
  unique;
* fallible operations return Option; where the Rust code can panic
  (division by zero inside unwrap_index, an unwrap of None), the embedding
  returns none at an outer Option layer.
-/

namespace NothingMoves

/-- A cell coordinate: the embedding of a Rust array of u8 of length DIMS. -/
abbrev Pt := List Nat

/-- Rust: lengths.iter().map(to usize).product() in Maze::new. -/
def cellCount (lengths : List Nat) : Nat := lengths.prod

/-- Loop body of unwrap_index in maze.rs: for each length, emit
remaining % length and divide remaining by length.  A zero length makes the
Rust remainder operation panic, embedded as the outer none. -/
def unwrapAux : List Nat → Nat → Option (List Nat × Nat)
  | [], remaining => some ([], remaining)
  | l :: ls, remaining =>
    if l = 0 then none
    else
      match unwrapAux ls (remaining / l) with
      | none => none
      | some (res, rem) => some ((remaining % l) :: res, rem)

/-- Embedding of unwrap_index in maze.rs.  Outer none is a panic
(remainder by a zero length); some none is the Rust return value None;
some (some p) is the Rust return value Some(p). -/
def unwrap_index (lengths : List Nat) (index : Nat) : Option (Option Pt) :=
  match unwrapAux lengths index with
  | none => none
  | some (res, remaining) => if remaining = 0 then some (some res) else some none

/-- Mixed-radix positional encoding of a coordinate, the inverse direction
of unwrap_index as described by the specification (positional radix sum
over the lengths in dimension order). -/
def wrap_index : List Nat → Pt → Nat
  | [], _ => 0
  | _ :: _, [] => 0
  | l :: ls, x :: xs => x + l * wrap_index ls xs

/-- Pure mixed-radix decoding (the value unwrap_index computes when no
length is zero). -/
def decode : List Nat → Nat → Pt
  | [], _ => []
  | l :: ls, i => (i % l) :: decode ls (i / l)

/-- The coordinate p is an in-bounds cell of the grid: the right number of
components, each strictly below the matching dimension length. -/
def InB (lengths : List Nat) (p : Pt) : Prop :=
  p.length = lengths.length ∧ ∀ i < lengths.length, p.getD i 0 < lengths.getD i 0

instance (lengths : List Nat) (p : Pt) : Decidable (InB lengths p) := by
  unfold InB; infer_instance

theorem decode_length (lengths : List Nat) (i : Nat) :
    (decode lengths i).length = lengths.length := by
  induction lengths generalizing i with
  | nil => rfl
  | cons l ls ih => simp [decode, ih]

theorem cellCount_cons (l : Nat) (ls : List Nat) :
    cellCount (l :: ls) = l * cellCount ls := by
  simp [cellCount]

theorem decode_inB (lengths : List Nat) (i : Nat) (h : i < cellCount lengths) :
    InB lengths (decode lengths i) := by
  induction lengths generalizing i with
  | nil =>
    exact ⟨rfl, by intro j hj; simp at hj⟩
  | cons l ls ih =>
    rw [cellCount_cons] at h
    have hl : 0 < l := by
      rcases Nat.eq_zero_or_pos l with h0 | h0
      · subst h0; simp at h
      · exact h0
    have hdiv : i / l < cellCount ls := Nat.div_lt_of_lt_mul h
    obtain ⟨ihl, ihb⟩ := ih (i / l) hdiv
    refine ⟨by simp [decode, ihl], ?_⟩
    intro j hj
    cases j with
    | zero => simpa [decode] using Nat.mod_lt i hl
    | succ j =>
      have := ihb j (by simpa using hj)
      simpa [decode] using this

theorem wrap_decode (lengths : List Nat) (i : Nat) (h : i < cellCount lengths) :
    wrap_index lengths (decode lengths i) = i := by
  induction lengths generalizing i with
  | nil =>
    simp [cellCount] at h
    simp [wrap_index, h]
  | cons l ls ih =>
    rw [cellCount_cons] at h
    have hl : 0 < l := by
      rcases Nat.eq_zero_or_pos l with h0 | h0
      · subst h0; simp at h
      · exact h0
    have hdiv : i / l < cellCount ls := Nat.div_lt_of_lt_mul h
    simp only [decode, wrap_index]
    rw [ih (i / l) hdiv]
    exact Nat.mod_add_div i l

theorem wrap_lt (lengths : List Nat) (p : Pt) (h : InB lengths p) :
    wrap_index lengths p < cellCount lengths := by
  induction lengths generalizing p with
  | nil => simp [wrap_index, cellCount]
  | cons l ls ih =>
    obtain ⟨hlen, hb⟩ := h
    cases p with
    | nil => simp at hlen
    | cons x xs =>
      have hx : x < l := by simpa using hb 0 (by simp)
      have hxs : InB ls xs := by
        refine ⟨by simpa using hlen, ?_⟩
        intro i hi
        simpa using hb (i + 1) (by simpa using hi)
      have htail := ih xs hxs
      rw [cellCount_cons]
      simp only [wrap_index]
      calc x + l * wrap_index ls xs < l * wrap_index ls xs + l := by omega
        _ = l * (wrap_index ls xs + 1) := by ring
        _ ≤ l * cellCount ls := Nat.mul_le_mul_left l (by omega)

theorem decode_wrap (lengths : List Nat) (p : Pt) (h : InB lengths p) :
    decode lengths (wrap_index lengths p) = p := by
  induction lengths generalizing p with
  | nil =>
    obtain ⟨hlen, _⟩ := h
    cases p with
    | nil => rfl
    | cons x xs => simp at hlen
  | cons l ls ih =>
    obtain ⟨hlen, hb⟩ := h
    cases p with
    | nil => simp at hlen
    | cons x xs =>
      have hx : x < l := by simpa using hb 0 (by simp)
      have hxs : InB ls xs := by
        refine ⟨by simpa using hlen, ?_⟩
        intro i hi
        simpa using hb (i + 1) (by simpa using hi)
      simp only [wrap_index, decode]
      have h1 : (x + l * wrap_index ls xs) % l = x := by
        rw [Nat.add_mul_mod_self_left]
        exact Nat.mod_eq_of_lt hx
      have h2 : (x + l * wrap_index ls xs) / l = wrap_index ls xs := by
        rw [Nat.add_mul_div_left x _ (by omega), Nat.div_eq_of_lt hx, Nat.zero_add]
      rw [h1, h2, ih xs hxs]

theorem wrap_inj (lengths : List Nat) (p q : Pt)
    (hp : InB lengths p) (hq : InB lengths q)
    (h : wrap_index lengths p = wrap_index lengths q) : p = q := by
  have := decode_wrap lengths p hp
  rw [h, decode_wrap lengths q hq] at this
  exact this.symm

theorem unwrapAux_eq (lengths : List Nat) (i : Nat) (hpos : ∀ l ∈ lengths, 1 ≤ l) :
    unwrapAux lengths i = some (decode lengths i, i / cellCount lengths) := by
  induction lengths generalizing i with
  | nil => simp [unwrapAux, decode, cellCount]
  | cons l ls ih =>
    have hl : 1 ≤ l := hpos l (by simp)
    have hls : ∀ x ∈ ls, 1 ≤ x := fun x hx => hpos x (by simp [hx])
    simp only [unwrapAux, if_neg (by omega : ¬l = 0), ih (i / l) hls]
    simp [decode, cellCount_cons, Nat.div_div_eq_div_mul, cellCount]

theorem unwrap_index_eq (lengths : List Nat) (i : Nat) (hpos : ∀ l ∈ lengths, 1 ≤ l) :
    unwrap_index lengths i =
      some (if i < cellCount lengths then some (decode lengths i) else none) := by
  have hP : 0 < cellCount lengths := by
    have : ∀ l ∈ lengths, 0 < l := fun l hl => hpos l hl
    exact List.prod_pos this
  rw [unwrap_index, unwrapAux_eq lengths i hpos]
  by_cases h : i < cellCount lengths
  · simp [h, Nat.div_eq_of_lt h]
  · have : i / cellCount lengths ≠ 0 := by
      push_neg at h
      have := Nat.div_le_div_right (c := cellCount lengths) h
      rw [Nat.div_self hP] at this
      omega
    simp [h, this]

/-- The finished maze: the embedding of struct Maze in maze.rs.  The Rust
HashSet of walks is embedded as a duplicate-free list (insertion refuses
duplicates, see hsInsert below), so list length is set cardinality. -/
structure Maze where
  walks : List (Pt × Pt)
  lengths : List Nat
  deriving DecidableEq

/-- The bounds loop of Maze::check_pair, iterating over the given index
list (the Rust loop runs over 0..DIMS).  Array indexing on the three
fixed-size arrays is embedded fallibly: outer none is an out-of-bounds
access (impossible in Rust, where the index type guarantees length DIMS);
some false means some index failed the bounds test and the function
returns None; some true means every index passed. -/
def checkBoundsLoop (lengths a b : Pt) : List Nat → Option Bool
  | [] => some true
  | i :: rest =>
    match lengths.get? i, a.get? i, b.get? i with
    | some l, some x, some y =>
      if x ≥ l ∨ y ≥ l then some false else checkBoundsLoop lengths a b rest
    | _, _, _ => none

/-- Embedding of Maze::check_pair.  Outer none is a panic, some none is the
Rust None, some (some v) is the Rust Some(v): membership of the pair in the
walk set in either direction. -/
def check_pair (m : Maze) (a b : Pt) : Option (Option Bool) :=
  match checkBoundsLoop m.lengths a b (List.range m.lengths.length) with
  | none => none
  | some false => some none
  | some true => some (some (decide ((a, b) ∈ m.walks ∨ (b, a) ∈ m.walks)))

/-- Embedding of Maze::can_move.  target_point.get_mut(dimension) is the
fallible lookup; checked_add(1) on a u8 component v succeeds exactly when
v + 1 ≤ 255.  Outer none is a panic, some none the Rust None, some (some v)
the Rust Some(v). -/
def can_move (m : Maze) (point : Pt) (dimension : Nat) : Option (Option Bool) :=
  match point.get? dimension with
  | some v =>
    if v + 1 ≤ 255 then check_pair m point (point.set dimension (v + 1))
    else some none
  | none => some none

/-- Embedding of MazeGenCell::get_root: chase parent links until a node
with no parent is reached.  The parent pointers of the Rust Rc cells are an
explicit array uf (entry i is the parent of the cell with id i, none for a
root).  The Rust recursion has no bound; the embedding adds fuel, and fuel
uf.length is proved sufficient under the generator invariant. -/
def get_root (uf : List (Option Nat)) : Nat → Nat → Nat
  | 0, i => i
  | fuel + 1, i =>
    match uf.getD i none with
    | none => i
    | some p => get_root uf fuel p

/-- Embedding of MazeGenCell::try_merge: compute both roots; if they are
distinct cells, the root of b gets the root of a as parent and the result
is true, otherwise the state is untouched and the result is false. -/
def try_merge (uf : List (Option Nat)) (a b : Nat) : Bool × List (Option Nat) :=
  let ra := get_root uf uf.length a
  let rb := get_root uf uf.length b
  if ra = rb then (false, uf) else (true, uf.set rb (some ra))

/-- The parent chain from node i reaches root r in k steps. -/
inductive Chain (uf : List (Option Nat)) : Nat → Nat → Nat → Prop where
  | root (i : Nat) : uf.getD i none = none → Chain uf i i 0
  | step (i p r k : Nat) : uf.getD i none = some p → Chain uf p r k →
      Chain uf i r (k + 1)

/-- The set of in-range roots of the parent array. -/
def rootSet (uf : List (Option Nat)) : Finset Nat :=
  (Finset.range uf.length).filter (fun i => uf.getD i none = none)

/-- The root returned by get_root with the fuel try_merge uses. -/
def find (uf : List (Option Nat)) (i : Nat) : Nat := get_root uf uf.length i

/-- All parent pointers land inside the array. -/
def ParentsLt (uf : List (Option Nat)) : Prop :=
  ∀ j p, uf.getD j none = some p → p < uf.length

/-- Well-formed union-find state: parents are in range and every node has a
parent chain to a root whose length, together with the number of remaining
roots, fits in the array length.  The bound makes fuel uf.length enough for
get_root, including after one more merge. -/
def UFWF (uf : List (Option Nat)) : Prop :=
  ParentsLt uf ∧ ∀ i, ∃ r k, Chain uf i r k ∧ k + (rootSet uf).card ≤ uf.length

theorem chain_unique {uf : List (Option Nat)} {i r k r' k' : Nat}
    (h : Chain uf i r k) (h' : Chain uf i r' k') : r = r' ∧ k = k' := by
  induction h generalizing k' with
  | root j hj =>
    cases h' with
    | root _ _ => exact ⟨rfl, rfl⟩
    | step _ p _ _ hp _ => rw [hj] at hp; cases hp
  | step j p r k hp hc ih =>
    cases h' with
    | root _ hj => rw [hj] at hp; cases hp
    | step _ q _ k2 hq hc2 =>
      rw [hp] at hq
      cases hq
      obtain ⟨hr, hk⟩ := ih hc2
      exact ⟨hr, by omega⟩

theorem chain_root_isRoot {uf : List (Option Nat)} {i r k : Nat}
    (h : Chain uf i r k) : uf.getD r none = none := by
  induction h with
  | root _ hj => exact hj
  | step _ _ _ _ _ _ ih => exact ih

theorem get_root_of_chain {uf : List (Option Nat)} {i r k : Nat}
    (h : Chain uf i r k) : ∀ fuel, k ≤ fuel → get_root uf fuel i = r := by
  induction h with
  | root j hj =>
    intro fuel _
    cases fuel with
    | zero => rfl
    | succ f =>
      show (match uf.getD j none with | none => j | some p => get_root uf f p) = j
      rw [hj]
  | step j p r k hp _ ih =>
    intro fuel hf
    cases fuel with
    | zero => omega
    | succ f =>
      show (match uf.getD j none with | none => j | some q => get_root uf f q) = r
      rw [hp]
      exact ih f (by omega)

theorem chain_lt {uf : List (Option Nat)} (hp : ParentsLt uf) {i r k : Nat}
    (h : Chain uf i r k) (hi : i < uf.length) : r < uf.length := by
  induction h with
  | root _ _ => exact hi
  | step j p r k hj _ ih => exact ih (hp j p hj)

theorem find_eq_of_chain {uf : List (Option Nat)} {i r k : Nat}
    (h : Chain uf i r k) (hk : k ≤ uf.length) : find uf i = r :=
  get_root_of_chain h uf.length hk

theorem rootSet_card_le (uf : List (Option Nat)) :
    (rootSet uf).card ≤ uf.length := by
  calc (rootSet uf).card ≤ (Finset.range uf.length).card := Finset.card_filter_le _ _
    _ = uf.length := Finset.card_range _

theorem find_of_wf {uf : List (Option Nat)} (hwf : UFWF uf) (i : Nat) :
    ∃ r k, Chain uf i r k ∧ k + (rootSet uf).card ≤ uf.length ∧ find uf i = r := by
  obtain ⟨r, k, hc, hk⟩ := hwf.2 i
  exact ⟨r, k, hc, hk, find_eq_of_chain hc (by omega)⟩

theorem find_isRoot {uf : List (Option Nat)} (hwf : UFWF uf) (i : Nat) :
    uf.getD (find uf i) none = none := by
  obtain ⟨r, k, hc, _, hfind⟩ := find_of_wf hwf i
  rw [hfind]
  exact chain_root_isRoot hc

theorem find_lt {uf : List (Option Nat)} (hwf : UFWF uf) {i : Nat}
    (hi : i < uf.length) : find uf i < uf.length := by
  obtain ⟨r, k, hc, _, hfind⟩ := find_of_wf hwf i
  rw [hfind]
  exact chain_lt hwf.1 hc hi

theorem find_root_fixed {uf : List (Option Nat)} {r : Nat}
    (h : uf.getD r none = none) : find uf r = r :=
  get_root_of_chain (Chain.root r h) uf.length (by omega)

theorem find_mem_rootSet {uf : List (Option Nat)} (hwf : UFWF uf) {i : Nat}
    (hi : i < uf.length) : find uf i ∈ rootSet uf := by
  rw [rootSet, Finset.mem_filter, Finset.mem_range]
  exact ⟨find_lt hwf hi, find_isRoot hwf i⟩

theorem getD_set_self {uf : List (Option Nat)} {i : Nat} (v : Option Nat)
    (h : i < uf.length) : (uf.set i v).getD i none = v := by
  rw [List.getD_eq_getElem?_getD, List.getElem?_set_self h]
  rfl

theorem getD_set_ne {uf : List (Option Nat)} {i j : Nat} (v : Option Nat)
    (h : i ≠ j) : (uf.set i v).getD j none = uf.getD j none := by
  rw [List.getD_eq_getElem?_getD, List.getElem?_set_ne h, ← List.getD_eq_getElem?_getD]

theorem chain_set_of_root_ne {uf : List (Option Nat)} {i r k rb : Nat}
    (h : Chain uf i r k) (hrb : uf.getD rb none = none) (hne : r ≠ rb)
    (v : Option Nat) : Chain (uf.set rb v) i r k := by
  induction h with
  | root j hj =>
    have hj' : j ≠ rb := fun he => hne (by omega)
    exact Chain.root j (by rw [getD_set_ne v hj'.symm]; exact hj)
  | step j p r k hj hc ih =>
    have hj' : j ≠ rb := by
      intro he
      rw [he, hrb] at hj
      cases hj
    exact Chain.step j p r k (by rw [getD_set_ne v hj'.symm]; exact hj) (ih hne)

theorem chain_set_of_root_eq {uf : List (Option Nat)} {i k rb ra : Nat}
    (h : Chain uf i rb k) (hra : uf.getD ra none = none)
    (hne : ra ≤ rb → rb ≤ ra → False)
    (hrb : rb < uf.length) : Chain (uf.set rb (some ra)) i ra (k + 1) := by
  induction h with
  | root j hj =>
    have hne' : ra ≠ j := fun he => hne (by omega) (by omega)
    refine Chain.step j ra ra 0 ?_ ?_
    · rw [getD_set_self (some ra) hrb]
    · exact Chain.root ra (by rw [getD_set_ne _ hne'.symm]; exact hra)
  | step j p r k hj hc ih =>
    have hrootb : uf.getD r none = none := chain_root_isRoot hc
    have hj' : j ≠ r := by
      intro he
      rw [he, hrootb] at hj
      cases hj
    exact Chain.step j p ra (k + 1)
      (by rw [getD_set_ne _ hj'.symm]; exact hj) (ih hne hrb)

theorem rootSet_set (uf : List (Option Nat)) (rb ra : Nat) (hrb : rb < uf.length) :
    rootSet (uf.set rb (some ra)) = (rootSet uf).erase rb := by
  ext j
  rw [rootSet, Finset.mem_filter, Finset.mem_range, List.length_set,
    Finset.mem_erase, rootSet, Finset.mem_filter, Finset.mem_range]
  by_cases hj : j = rb
  · subst hj
    rw [getD_set_self (some ra) hrb]
    simp
  · rw [getD_set_ne _ (fun he => hj he.symm)]
    tauto

/-- Merging root rb under root ra rewires the find map: classes that found
rb now find ra and every other class is untouched. -/
theorem find_set_root {uf : List (Option Nat)} (hwf : UFWF uf) {ra rb : Nat}
    (hra : uf.getD ra none = none) (hrb : uf.getD rb none = none)
    (hrarb : ra ≠ rb) (hrbl : rb < uf.length) (hral : ra < uf.length) (i : Nat) :
    find (uf.set rb (some ra)) i =
      if find uf i = rb then ra else find uf i := by
  obtain ⟨r, k, hc, hk, hfind⟩ := find_of_wf hwf i
  have hlen : (uf.set rb (some ra)).length = uf.length := List.length_set uf rb _
  have hrbmem : rb ∈ rootSet uf := by
    rw [rootSet, Finset.mem_filter, Finset.mem_range]
    exact ⟨hrbl, hrb⟩
  have hcard : 1 ≤ (rootSet uf).card := Finset.card_pos.mpr ⟨rb, hrbmem⟩
  by_cases hr : r = rb
  · subst hr
    have hchain := chain_set_of_root_eq hc hra (fun h1 h2 => hrarb (by omega)) hrbl
    rw [hfind, if_pos rfl]
    exact get_root_of_chain hchain _ (by omega)
  · have hchain := chain_set_of_root_ne hc hrb hr (some ra)
    rw [hfind, if_neg hr]
    exact get_root_of_chain hchain _ (by omega)

/-- Merging root rb under root ra preserves well-formedness. -/
theorem ufwf_set_root {uf : List (Option Nat)} (hwf : UFWF uf) {ra rb : Nat}
    (hra : uf.getD ra none = none) (hrb : uf.getD rb none = none)
    (hrarb : ra ≠ rb) (hrbl : rb < uf.length) (hral : ra < uf.length) :
    UFWF (uf.set rb (some ra)) := by
  have hlen : (uf.set rb (some ra)).length = uf.length := List.length_set uf rb _
  have hrbmem : rb ∈ rootSet uf := by
    rw [rootSet, Finset.mem_filter, Finset.mem_range]
    exact ⟨hrbl, hrb⟩
  have hcard : (rootSet (uf.set rb (some ra))).card = (rootSet uf).card - 1 := by
    rw [rootSet_set uf rb ra hrbl]
    exact Finset.card_erase_of_mem hrbmem
  have hcard1 : 1 ≤ (rootSet uf).card := Finset.card_pos.mpr ⟨rb, hrbmem⟩
  constructor
  · intro j p hj
    rw [hlen]
    by_cases hjrb : j = rb
    · subst hjrb
      rw [getD_set_self (some ra) hrbl] at hj
      cases hj
      exact hral
    · rw [getD_set_ne _ (fun he => hjrb he.symm)] at hj
      exact hwf.1 j p hj
  · intro i
    obtain ⟨r, k, hc, hk⟩ := hwf.2 i
    by_cases hr : r = rb
    · subst hr
      refine ⟨ra, k + 1, chain_set_of_root_eq hc hra (fun h1 h2 => hrarb (by omega)) hrbl, ?_⟩
      rw [hlen, hcard]
      omega
    · refine ⟨r, k, chain_set_of_root_ne hc hrb hr (some ra), ?_⟩
      rw [hlen, hcard]
      omega

/-- On a fresh all-roots parent array every node is its own root. -/
theorem ufwf_replicate (n : Nat) : UFWF (List.replicate n (none : Option Nat)) := by
  have hroot : ∀ i, (List.replicate n (none : Option Nat)).getD i none = none := by
    intro i
    rw [List.getD_eq_getElem?_getD, List.getElem?_replicate]
    by_cases h : i < n <;> simp [h]
  constructor
  · intro j p hj
    rw [hroot j] at hj
    cases hj
  · intro i
    refine ⟨i, 0, Chain.root i (hroot i), ?_⟩
    have := rootSet_card_le (List.replicate n (none : Option Nat))
    simpa using this

theorem find_replicate (n i : Nat) :
    find (List.replicate n (none : Option Nat)) i = i := by
  apply find_root_fixed
  rw [List.getD_eq_getElem?_getD, List.getElem?_replicate]
  by_cases h : i < n <;> simp [h]

theorem rootSet_replicate (n : Nat) :
    rootSet (List.replicate n (none : Option Nat)) = Finset.range n := by
  ext j
  rw [rootSet, Finset.mem_filter, Finset.mem_range, List.length_replicate,
    Finset.mem_range, List.getD_eq_getElem?_getD, List.getElem?_replicate]
  by_cases h : j < n <;> simp [h]

/-- Decreasing lexicographic order on heap entries (draw, index, dimension),
mirroring the derived Ord of the Rust tuple (u32, usize, usize). -/
def heapGE (x y : Nat × Nat × Nat) : Bool :=
  decide (y.1 < x.1 ∨ (y.1 = x.1 ∧ (y.2.1 < x.2.1 ∨
    (y.2.1 = x.2.1 ∧ y.2.2 ≤ x.2.2))))

/-- Insert an entry into a descending-sorted list, keeping it sorted. -/
def insertDesc (x : Nat × Nat × Nat) : List (Nat × Nat × Nat) → List (Nat × Nat × Nat)
  | [] => [x]
  | y :: ys => if heapGE x y then x :: y :: ys else y :: insertDesc x ys

/-- The pop order of the BinaryHeap of Maze::new: its entries in descending
lexicographic order.  All entries are distinct (distinct (index, dimension)
pairs), so this order is exactly the observable pop sequence. -/
def sortPending : List (Nat × Nat × Nat) → List (Nat × Nat × Nat)
  | [] => []
  | x :: xs => insertDesc x (sortPending xs)

/-- The entries pushed on the heap in Maze::new: for every cell index and
every dimension, one entry (rng draw, index, dimension).  The rng argument
is the stream of next_u32 draws in call order; the draw consumed for
(index, dim) is draw number index * DIMS + dim. -/
def pendingList (n dims : Nat) (rng : Nat → Nat) : List (Nat × Nat × Nat) :=
  (List.range n).flatMap
    (fun index => (List.range dims).map (fun dim => (rng (index * dims + dim), index, dim)))

/-- The cells HashMap of Maze::new, built by inserting, for each index in
0..cell_count, the decoded position as key with the cell id (= index) as
value.  The value unwrap call of the Rust code panics when unwrap_index
returns None, and unwrap_index itself can panic: both are the outer none. -/
def buildCellsAux (lengths : List Nat) : List Nat → Option (List (Pt × Nat))
  | [] => some []
  | i :: is =>
    match unwrap_index lengths i with
    | some (some p) =>
      match buildCellsAux lengths is with
      | some rest => some ((p, i) :: rest)
      | none => none
    | _ => none

def buildCells (lengths : List Nat) (n : Nat) : Option (List (Pt × Nat)) :=
  buildCellsAux lengths (List.range n)

/-- HashMap::get on the cells map (keys are distinct coordinates). -/
def cellsGet (cells : List (Pt × Nat)) (p : Pt) : Option Nat :=
  match cells with
  | [] => none
  | (q, i) :: rest => if p = q then some i else cellsGet rest p

/-- HashSet::insert on the walk set, embedded on a duplicate-free list. -/
def hsInsert (walks : List (Pt × Pt)) (e : Pt × Pt) : List (Pt × Pt) :=
  if e ∈ walks then walks else e :: walks

/-- The mutable generation state of Maze::new: the union-find parent array
(one entry per cell id) and the walk set accumulated so far. -/
structure GenState where
  uf : List (Option Nat)
  walks : List (Pt × Pt)

/-- The body of the pop loop of Maze::new for one heap entry
(draw, target_index, dim): decode the index (unwrap panics are the outer
none), skip when the component equals the dimension length, build the
forward neighbour, look both coordinates up in the cells map and on a
successful merge record the walk. -/
def genStep (lengths : List Nat) (cells : List (Pt × Nat)) (st : GenState)
    (e : Nat × Nat × Nat) : Option GenState :=
  match e with
  | (_, target_index, dim) =>
    match unwrap_index lengths target_index with
    | some (some a) =>
      if a.getD dim 0 = lengths.getD dim 0 then some st
      else
        match cellsGet cells a, cellsGet cells (a.set dim (a.getD dim 0 + 1)) with
        | some ca, some cb =>
          match try_merge st.uf ca cb with
          | (true, uf2) =>
            some ⟨uf2, hsInsert st.walks (a, a.set dim (a.getD dim 0 + 1))⟩
          | (false, uf2) => some ⟨uf2, st.walks⟩
        | _, _ => some st
    | _ => none

/-- The pop loop of Maze::new over the whole pop sequence. -/
def genFold (lengths : List Nat) (cells : List (Pt × Nat)) (st : GenState) :
    List (Nat × Nat × Nat) → Option GenState
  | [] => some st
  | e :: es =>
    match genStep lengths cells st e with
    | some st2 => genFold lengths cells st2 es
    | none => none

/-- Embedding of Maze::new.  none is a panic of the Rust code (never
reached, as proved below); some m is normal return of the built maze. -/
def Maze.new (lengths : List Nat) (rng : Nat → Nat) : Option Maze :=
  match buildCells lengths (cellCount lengths) with
  | none => none
  | some cells =>
    match genFold lengths cells ⟨List.replicate (cellCount lengths) none, []⟩
        (sortPending (pendingList (cellCount lengths) lengths.length rng)) with
    | some st => some ⟨st.walks, lengths⟩
    | none => none

/-- One undirected step along a recorded walk. -/
def WalkStep (walks : List (Pt × Pt)) (x y : Pt) : Prop :=
  (x, y) ∈ walks ∨ (y, x) ∈ walks

/-- Connectivity through the walk set: the cell-adjacency reachability the
specification describes. -/
def WalkConn (walks : List (Pt × Pt)) : Pt → Pt → Prop :=
  Relation.ReflTransGen (WalkStep walks)

/-- The undirected simple graph induced on coordinates by the walk set. -/
def mazeGraph (walks : List (Pt × Pt)) : SimpleGraph Pt where
  Adj x y := x ≠ y ∧ WalkStep walks x y
  symm := by
    intro x y h
    exact ⟨fun he => h.1 he.symm, h.2.elim Or.inr Or.inl⟩
  loopless := by
    intro x h
    exact h.1 rfl

/-- The pair (a, b) is a grid edge: both cells in bounds and b is a plus
one step from a along one dimension. -/
def ValidEdge (lengths : List Nat) (e : Pt × Pt) : Prop :=
  InB lengths e.1 ∧ InB lengths e.2 ∧
    ∃ d < lengths.length, e.2 = e.1.set d (e.1.getD d 0 + 1)

/-- Undirected grid adjacency. -/
def GridStep (lengths : List Nat) (x y : Pt) : Prop :=
  ValidEdge lengths (x, y) ∨ ValidEdge lengths (y, x)

/-- Connectivity of the grid graph. -/
def GridConn (lengths : List Nat) : Pt → Pt → Prop :=
  Relation.ReflTransGen (GridStep lengths)

theorem walkStep_symm (walks : List (Pt × Pt)) {x y : Pt}
    (h : WalkStep walks x y) : WalkStep walks y x := h.elim Or.inr Or.inl

theorem walkConn_symm (walks : List (Pt × Pt)) {x y : Pt}
    (h : WalkConn walks x y) : WalkConn walks y x :=
  Relation.ReflTransGen.symmetric (fun _ _ => walkStep_symm walks) h

theorem walkConn_mono {walks walks2 : List (Pt × Pt)} (hsub : walks ⊆ walks2)
    {x y : Pt} (h : WalkConn walks x y) : WalkConn walks2 x y :=
  Relation.ReflTransGen.mono
    (fun _ _ hs => hs.elim (fun hm => Or.inl (hsub hm)) (fun hm => Or.inr (hsub hm))) h

theorem walkConn_nil {x y : Pt} (h : WalkConn [] x y) : x = y := by
  induction h with
  | refl => rfl
  | tail _ hstep ih =>
    rcases hstep with hm | hm <;> simp at hm

/-- Splitting a connection through an extended walk set: either the new
edge is never crossed, or the connection decomposes at the new edge. -/
theorem walkConn_cons {e : Pt × Pt} {walks : List (Pt × Pt)} {x y : Pt}
    (h : WalkConn (e :: walks) x y) :
    WalkConn walks x y ∨
      (WalkConn walks x e.1 ∧ WalkConn walks e.2 y) ∨
      (WalkConn walks x e.2 ∧ WalkConn walks e.1 y) := by
  induction h with
  | refl => exact Or.inl Relation.ReflTransGen.refl
  | tail hxz hstep ih =>
    rename_i z w
    have hcases : WalkStep walks z w ∨ (z = e.1 ∧ w = e.2) ∨ (z = e.2 ∧ w = e.1) := by
      rcases hstep with hm | hm
      · rcases List.mem_cons.mp hm with he | hm2
        · right; left
          exact ⟨congrArg Prod.fst he, congrArg Prod.snd he⟩
        · exact Or.inl (Or.inl hm2)
      · rcases List.mem_cons.mp hm with he | hm2
        · right; right
          exact ⟨congrArg Prod.snd he, congrArg Prod.fst he⟩
        · exact Or.inl (Or.inr hm2)
    rcases hcases with hs | ⟨hz, hw⟩ | ⟨hz, hw⟩
    · rcases ih with h1 | ⟨h1, h2⟩ | ⟨h1, h2⟩
      · exact Or.inl (h1.tail hs)
      · exact Or.inr (Or.inl ⟨h1, h2.tail hs⟩)
      · exact Or.inr (Or.inr ⟨h1, h2.tail hs⟩)
    · subst hz; subst hw
      rcases ih with h1 | ⟨h1, h2⟩ | ⟨h1, h2⟩
      · exact Or.inr (Or.inl ⟨h1, Relation.ReflTransGen.refl⟩)
      · exact Or.inr (Or.inl ⟨h1, Relation.ReflTransGen.refl⟩)
      · exact Or.inl h1
    · subst hz; subst hw
      rcases ih with h1 | ⟨h1, h2⟩ | ⟨h1, h2⟩
      · exact Or.inr (Or.inr ⟨h1, Relation.ReflTransGen.refl⟩)
      · exact Or.inl h1
      · exact Or.inr (Or.inr ⟨h1, Relation.ReflTransGen.refl⟩)

theorem buildCellsAux_eq (lengths : List Nat) (hpos : ∀ l ∈ lengths, 1 ≤ l)
    (is : List Nat) (hlt : ∀ i ∈ is, i < cellCount lengths) :
    buildCellsAux lengths is = some (is.map (fun i => (decode lengths i, i))) := by
  induction is with
  | nil => rfl
  | cons i rest ih =>
    have hi : i < cellCount lengths := hlt i (by simp)
    rw [buildCellsAux, unwrap_index_eq lengths i hpos, if_pos hi,
      ih (fun j hj => hlt j (by simp [hj]))]
    rfl

theorem buildCells_eq (lengths : List Nat) (hpos : ∀ l ∈ lengths, 1 ≤ l) :
    buildCells lengths (cellCount lengths) =
      some ((List.range (cellCount lengths)).map (fun i => (decode lengths i, i))) :=
  buildCellsAux_eq lengths hpos _ (fun i hi => List.mem_range.mp hi)

theorem cellsGet_map (lengths : List Nat) (is : List Nat)
    (hlt : ∀ i ∈ is, i < cellCount lengths) (p : Pt) :
    cellsGet (is.map (fun i => (decode lengths i, i))) p =
      if InB lengths p ∧ wrap_index lengths p ∈ is
      then some (wrap_index lengths p) else none := by
  induction is with
  | nil => simp [cellsGet]
  | cons i rest ih =>
    have hi : i < cellCount lengths := hlt i (by simp)
    have ihr := ih (fun j hj => hlt j (by simp [hj]))
    simp only [List.map_cons, cellsGet]
    by_cases hp : p = decode lengths i
    · subst hp
      have hinb : InB lengths (decode lengths i) := decode_inB lengths i hi
      have hw : wrap_index lengths (decode lengths i) = i := wrap_decode lengths i hi
      rw [if_pos rfl, if_pos ⟨hinb, by rw [hw]; exact List.mem_cons_self i rest⟩, hw]
    · rw [if_neg hp, ihr]
      by_cases hinb : InB lengths p
      · have hne : wrap_index lengths p ≠ i := by
          intro he
          apply hp
          rw [← decode_wrap lengths p hinb, he]
        by_cases hmem : wrap_index lengths p ∈ rest
        · rw [if_pos ⟨hinb, hmem⟩, if_pos ⟨hinb, List.mem_cons.mpr (Or.inr hmem)⟩]
        · rw [if_neg (fun hc => hmem hc.2),
            if_neg (fun hc => (List.mem_cons.mp hc.2).elim hne hmem)]
      · rw [if_neg (fun hc => hinb hc.1), if_neg (fun hc => hinb hc.1)]

theorem cellsGet_range (lengths : List Nat) (p : Pt) :
    cellsGet ((List.range (cellCount lengths)).map (fun i => (decode lengths i, i))) p =
      if InB lengths p then some (wrap_index lengths p) else none := by
  rw [cellsGet_map lengths _ (fun i hi => List.mem_range.mp hi) p]
  by_cases hinb : InB lengths p
  · rw [if_pos ⟨hinb, List.mem_range.mpr (wrap_lt lengths p hinb)⟩, if_pos hinb]
  · rw [if_neg (fun hc => hinb hc.1), if_neg hinb]

theorem insertDesc_perm (x : Nat × Nat × Nat) (l : List (Nat × Nat × Nat)) :
    (insertDesc x l).Perm (x :: l) := by
  induction l with
  | nil => exact List.Perm.refl _
  | cons y ys ih =>
    rw [insertDesc]
    by_cases h : heapGE x y
    · rw [if_pos h]
    · rw [if_neg h]
      exact List.Perm.trans (List.Perm.cons y ih) (List.Perm.swap x y ys)

theorem sortPending_perm (l : List (Nat × Nat × Nat)) : (sortPending l).Perm l := by
  induction l with
  | nil => exact List.Perm.refl _
  | cons x xs ih =>
    rw [sortPending]
    exact (insertDesc_perm x (sortPending xs)).trans (List.Perm.cons x ih)

theorem pendingList_mem_bounds {n dims : Nat} {rng : Nat → Nat}
    {e : Nat × Nat × Nat} (h : e ∈ pendingList n dims rng) :
    e.2.1 < n ∧ e.2.2 < dims := by
  rw [pendingList, List.mem_flatMap] at h
  obtain ⟨i, hi, hmem⟩ := h
  rw [List.mem_map] at hmem
  obtain ⟨d, hd, he⟩ := hmem
  subst he
  exact ⟨List.mem_range.mp hi, List.mem_range.mp hd⟩

theorem pendingList_mem {n dims : Nat} (rng : Nat → Nat) {i d : Nat}
    (hi : i < n) (hd : d < dims) :
    (rng (i * dims + d), i, d) ∈ pendingList n dims rng := by
  rw [pendingList, List.mem_flatMap]
  exact ⟨i, List.mem_range.mpr hi,
    List.mem_map.mpr ⟨d, List.mem_range.mpr hd, rfl⟩⟩

theorem find_def (uf : List (Option Nat)) (i : Nat) :
    get_root uf uf.length i = find uf i := rfl

/-- The invariant of the generation loop of Maze::new: the union-find
array has one slot per cell; it is well formed; two cells share a root
exactly when they are connected through the recorded walks; the number of
walks plus the number of classes is the number of cells; every recorded
walk is a bridge (removing it disconnects its endpoints); every recorded
walk is a valid grid edge; and the walk list has no duplicates. -/
structure GenInv (lengths : List Nat) (st : GenState) : Prop where
  hlen : st.uf.length = cellCount lengths
  hwf : UFWF st.uf
  hclass : ∀ a b : Pt, InB lengths a → InB lengths b →
    (find st.uf (wrap_index lengths a) = find st.uf (wrap_index lengths b) ↔
      WalkConn st.walks a b)
  hcount : st.walks.length + (rootSet st.uf).card = cellCount lengths
  hforest : ∀ e ∈ st.walks, ¬ WalkConn (st.walks.erase e) e.1 e.2
  hedges : ∀ e ∈ st.walks, ValidEdge lengths e
  hnodup : st.walks.Nodup

theorem genInv_init (lengths : List Nat) :
    GenInv lengths ⟨List.replicate (cellCount lengths) none, []⟩ := by
  refine ⟨by simp, ufwf_replicate _, ?_, ?_, by simp, by simp, by simp⟩
  · intro a b ha hb
    rw [find_replicate, find_replicate]
    constructor
    · intro h
      rw [wrap_inj lengths a b ha hb h]
      exact Relation.ReflTransGen.refl
    · intro h
      rw [walkConn_nil h]
  · simp [rootSet_replicate]

/-- A successful merge of the classes of a grid edge (a, b) preserves the
generation invariant, and the edge is new. -/
theorem genInv_merge (lengths : List Nat) (st : GenState)
    (hinv : GenInv lengths st) (a b : Pt) (dim : Nat) (hdim : dim < lengths.length)
    (ha : InB lengths a) (hb : InB lengths b)
    (hab : b = a.set dim (a.getD dim 0 + 1))
    (hne2 : find st.uf (wrap_index lengths a) ≠ find st.uf (wrap_index lengths b)) :
    (a, b) ∉ st.walks ∧
    GenInv lengths
      ⟨st.uf.set (find st.uf (wrap_index lengths b))
          (some (find st.uf (wrap_index lengths a))),
        (a, b) :: st.walks⟩ := by
  obtain ⟨hlen, hwf, hclass, hcount, hforest, hedges, hnodup⟩ := hinv
  set ra := find st.uf (wrap_index lengths a) with hra_def
  set rb := find st.uf (wrap_index lengths b) with hrb_def
  have hwa : wrap_index lengths a < st.uf.length := by
    rw [hlen]; exact wrap_lt lengths a ha
  have hwb : wrap_index lengths b < st.uf.length := by
    rw [hlen]; exact wrap_lt lengths b hb
  have hra_root : st.uf.getD ra none = none := find_isRoot hwf _
  have hrb_root : st.uf.getD rb none = none := find_isRoot hwf _
  have hra_lt : ra < st.uf.length := find_lt hwf hwa
  have hrb_lt : rb < st.uf.length := find_lt hwf hwb
  have hfind2 : ∀ i, find (st.uf.set rb (some ra)) i =
      if find st.uf i = rb then ra else find st.uf i :=
    find_set_root hwf hra_root hrb_root hne2 hrb_lt hra_lt
  have hnotmem : (a, b) ∉ st.walks := by
    intro hmem
    exact hne2 ((hclass a b ha hb).mpr
      (Relation.ReflTransGen.single (Or.inl hmem)))
  have hedge_step : WalkStep ((a, b) :: st.walks) a b :=
    Or.inl (List.mem_cons_self _ _)
  have hsub : st.walks ⊆ (a, b) :: st.walks := List.subset_cons_self _ _
  have hconn_ab : ¬ WalkConn st.walks a b := by
    intro h
    exact hne2 ((hclass a b ha hb).mpr h)
  have hrbmem : rb ∈ rootSet st.uf := by
    rw [rootSet, Finset.mem_filter, Finset.mem_range]
    exact ⟨hrb_lt, hrb_root⟩
  refine ⟨hnotmem, ?_, ufwf_set_root hwf hra_root hrb_root hne2 hrb_lt hra_lt,
    ?_, ?_, ?_, ?_, ?_⟩
  · simpa using hlen
  · -- class structure after the merge
    intro x y hx hy
    rw [hfind2, hfind2]
    constructor
    · intro h
      by_cases hxc : find st.uf (wrap_index lengths x) = rb
      · by_cases hyc : find st.uf (wrap_index lengths y) = rb
        · exact walkConn_mono hsub ((hclass x y hx hy).mp (by rw [hxc, hyc]))
        · rw [if_pos hxc, if_neg hyc] at h
          have hyx : WalkConn st.walks y a :=
            (hclass y a hy ha).mp (by rw [← h, hra_def])
          have hxb : WalkConn st.walks x b := (hclass x b hx hb).mp (by rw [hxc])
          exact ((walkConn_mono hsub hxb).tail
            (walkStep_symm _ hedge_step)).trans
            (walkConn_mono hsub (walkConn_symm _ hyx))
      · by_cases hyc : find st.uf (wrap_index lengths y) = rb
        · rw [if_neg hxc, if_pos hyc] at h
          have hxa : WalkConn st.walks x a := (hclass x a hx ha).mp (by rw [h, hra_def])
          have hyb : WalkConn st.walks y b := (hclass y b hy hb).mp (by rw [hyc])
          exact ((walkConn_mono hsub hxa).tail hedge_step).trans
            (walkConn_mono hsub (walkConn_symm _ hyb))
        · rw [if_neg hxc, if_neg hyc] at h
          exact walkConn_mono hsub ((hclass x y hx hy).mp h)
    · intro h
      rcases walkConn_cons h with h1 | ⟨h1, h2⟩ | ⟨h1, h2⟩
      · rw [(hclass x y hx hy).mpr h1]
      · have hyb : find st.uf (wrap_index lengths y) = rb := by
          have := (hclass b y hb hy).mpr h2
          rw [← this]
        have hxa2 : find st.uf (wrap_index lengths x) = ra := by
          have := (hclass x a hx ha).mpr h1
          rw [this]
        rw [if_neg (by rw [hxa2]; exact hne2), hxa2, if_pos hyb]
      · have hxb : find st.uf (wrap_index lengths x) = rb := by
          have := (hclass x b hx hb).mpr h1
          rw [this]
        have hya : find st.uf (wrap_index lengths y) = ra := by
          have := (hclass a y ha hy).mpr h2
          rw [← this]
        rw [if_pos hxb, if_neg (by rw [hya]; exact hne2), hya]
  · -- edge / class counting
    have hcard : (rootSet (st.uf.set rb (some ra))).card = (rootSet st.uf).card - 1 := by
      rw [rootSet_set st.uf rb ra hrb_lt]
      exact Finset.card_erase_of_mem hrbmem
    have hcard1 : 1 ≤ (rootSet st.uf).card := Finset.card_pos.mpr ⟨rb, hrbmem⟩
    simp only [List.length_cons, hcard]
    omega
  · -- every edge is still a bridge
    intro e he
    rcases List.mem_cons.mp he with he0 | he0
    · subst he0
      rw [List.erase_cons_head]
      exact hconn_ab
    · have hne_e : ((a, b) : Pt × Pt) ≠ e := fun hc => hnotmem (hc ▸ he0)
      have hconn_e : WalkConn st.walks e.1 e.2 :=
        Relation.ReflTransGen.single (Or.inl (by rw [show (e.1, e.2) = e from rfl]; exact he0))
      rw [List.erase_cons_tail (by simpa using hne_e)]
      intro hcontra
      rcases walkConn_cons hcontra with h1 | ⟨h1, h2⟩ | ⟨h1, h2⟩
      · exact hforest e he0 h1
      · -- crossing the new edge links a and b through old walks
        apply hconn_ab
        have h1w : WalkConn st.walks e.1 a := walkConn_mono (List.erase_subset _ _) h1
        have h2w : WalkConn st.walks b e.2 := walkConn_mono (List.erase_subset _ _) h2
        exact (walkConn_symm _ h1w).trans (hconn_e.trans (walkConn_symm _ h2w))
      · apply hconn_ab
        have h1w : WalkConn st.walks e.1 b := walkConn_mono (List.erase_subset _ _) h1
        have h2w : WalkConn st.walks a e.2 := walkConn_mono (List.erase_subset _ _) h2
        exact h2w.trans ((walkConn_symm _ hconn_e).trans h1w)
  · intro e he
    rcases List.mem_cons.mp he with he0 | he0
    · subst he0
      exact ⟨ha, hb, dim, hdim, hab⟩
    · exact hedges e he0
  · exact List.nodup_cons.mpr ⟨hnotmem, hnodup⟩

/-- One loop iteration of Maze::new never panics and preserves the
invariant; classes only ever merge; walks only grow; and afterwards the
processed candidate edge, when its forward neighbour exists, joins its two
endpoints in one class. -/
theorem genStep_inv (lengths : List Nat) (hpos : ∀ l ∈ lengths, 1 ≤ l)
    (st : GenState) (w idx dim : Nat)
    (hidx : idx < cellCount lengths) (hdim : dim < lengths.length)
    (hinv : GenInv lengths st) :
    ∃ st2,
      genStep lengths
        ((List.range (cellCount lengths)).map (fun i => (decode lengths i, i))) st
        (w, idx, dim) = some st2 ∧
      GenInv lengths st2 ∧
      (∀ i j, find st.uf i = find st.uf j → find st2.uf i = find st2.uf j) ∧
      st.walks ⊆ st2.walks ∧
      (InB lengths ((decode lengths idx).set dim ((decode lengths idx).getD dim 0 + 1)) →
        find st2.uf (wrap_index lengths (decode lengths idx)) =
          find st2.uf (wrap_index lengths
            ((decode lengths idx).set dim ((decode lengths idx).getD dim 0 + 1)))) := by
  have ha : InB lengths (decode lengths idx) := decode_inB lengths idx hidx
  have hwa : wrap_index lengths (decode lengths idx) = idx := wrap_decode lengths idx hidx
  have hskip : ¬ ((decode lengths idx).getD dim 0 = lengths.getD dim 0) :=
    Nat.ne_of_lt (ha.2 dim hdim)
  have hu : unwrap_index lengths idx = some (some (decode lengths idx)) := by
    rw [unwrap_index_eq lengths idx hpos, if_pos hidx]
  have hcells : ∀ p : Pt,
      cellsGet ((List.range (cellCount lengths)).map (fun i => (decode lengths i, i))) p =
        if InB lengths p then some (wrap_index lengths p) else none :=
    cellsGet_range lengths
  simp only [genStep, hu, if_neg hskip, hcells, if_pos ha, hwa]
  by_cases hbi : InB lengths ((decode lengths idx).set dim ((decode lengths idx).getD dim 0 + 1))
  · rw [if_pos hbi]
    simp only [try_merge, find_def]
    by_cases heq : find st.uf idx =
        find st.uf (wrap_index lengths
          ((decode lengths idx).set dim ((decode lengths idx).getD dim 0 + 1)))
    · rw [if_pos heq]
      refine ⟨⟨st.uf, st.walks⟩, rfl, hinv, fun i j h => h, fun x hx => hx, fun _ => ?_⟩
      dsimp only
      exact heq
    · rw [if_neg heq]
      have hne2 : find st.uf (wrap_index lengths (decode lengths idx)) ≠
          find st.uf (wrap_index lengths
            ((decode lengths idx).set dim ((decode lengths idx).getD dim 0 + 1))) := by
        rw [hwa]
        exact heq
      obtain ⟨hnotmem, hinv2⟩ := genInv_merge lengths st hinv (decode lengths idx)
        ((decode lengths idx).set dim ((decode lengths idx).getD dim 0 + 1)) dim hdim
        ha hbi rfl hne2
      rw [hwa] at hinv2
      have hwaL : wrap_index lengths (decode lengths idx) < st.uf.length := by
        rw [hinv.hlen, hwa]
        exact hidx
      have hwbL : wrap_index lengths
          ((decode lengths idx).set dim ((decode lengths idx).getD dim 0 + 1)) <
            st.uf.length := by
        rw [hinv.hlen]
        exact wrap_lt lengths _ hbi
      have hra_root : st.uf.getD (find st.uf idx) none = none := find_isRoot hinv.hwf idx
      have hrb_root : st.uf.getD (find st.uf (wrap_index lengths
          ((decode lengths idx).set dim ((decode lengths idx).getD dim 0 + 1)))) none =
            none := find_isRoot hinv.hwf _
      have hra_lt : find st.uf idx < st.uf.length := find_lt hinv.hwf (by rw [hinv.hlen]; exact hidx)
      have hrb_lt : find st.uf (wrap_index lengths
          ((decode lengths idx).set dim ((decode lengths idx).getD dim 0 + 1))) <
            st.uf.length := find_lt hinv.hwf hwbL
      have hfind2 := find_set_root hinv.hwf hra_root hrb_root heq hrb_lt hra_lt
      rw [hsInsert, if_neg hnotmem]
      refine ⟨_, rfl, hinv2, ?_, ?_, fun _ => ?_⟩
      · intro i j h
        dsimp only
        rw [hfind2, hfind2, h]
      · exact List.subset_cons_self _ _
      · dsimp only
        rw [hfind2, hfind2, if_neg heq, if_pos rfl]
  · rw [if_neg hbi]
    exact ⟨st, rfl, hinv, fun i j h => h, fun x hx => hx, fun hc => absurd hc hbi⟩

/-- Folding the loop body over any list of in-range candidate edges never
panics, preserves the invariant, only merges classes, only grows the walk
list, and afterwards every processed edge with an in-bounds forward
neighbour has both endpoints in one class. -/
theorem genFold_inv (lengths : List Nat) (hpos : ∀ l ∈ lengths, 1 ≤ l) :
    ∀ (es : List (Nat × Nat × Nat)) (st : GenState),
      (∀ e ∈ es, e.2.1 < cellCount lengths ∧ e.2.2 < lengths.length) →
      GenInv lengths st →
      ∃ st2,
        genFold lengths
          ((List.range (cellCount lengths)).map (fun i => (decode lengths i, i)))
          st es = some st2 ∧
        GenInv lengths st2 ∧
        (∀ i j, find st.uf i = find st.uf j → find st2.uf i = find st2.uf j) ∧
        st.walks ⊆ st2.walks ∧
        (∀ e ∈ es,
          InB lengths ((decode lengths e.2.1).set e.2.2
            ((decode lengths e.2.1).getD e.2.2 0 + 1)) →
          find st2.uf (wrap_index lengths (decode lengths e.2.1)) =
            find st2.uf (wrap_index lengths ((decode lengths e.2.1).set e.2.2
              ((decode lengths e.2.1).getD e.2.2 0 + 1)))) := by
  intro es
  induction es with
  | nil =>
    intro st _ hinv
    exact ⟨st, rfl, hinv, fun i j h => h, fun x hx => hx, by simp⟩
  | cons e es ih =>
    intro st hbounds hinv
    obtain ⟨w, idx, dim⟩ := e
    obtain ⟨hidx, hdim⟩ := hbounds _ (List.mem_cons_self _ _)
    obtain ⟨st1, hstep, hinv1, hmono1, hsub1, hdone1⟩ :=
      genStep_inv lengths hpos st w idx dim hidx hdim hinv
    obtain ⟨st2, hfold, hinv2, hmono2, hsub2, hdone2⟩ :=
      ih st1 (fun x hx => hbounds x (List.mem_cons.mpr (Or.inr hx))) hinv1
    refine ⟨st2, ?_, hinv2, fun i j h => hmono2 i j (hmono1 i j h),
      fun x hx => hsub2 (hsub1 hx), ?_⟩
    · rw [genFold, hstep]
      exact hfold
    · intro e2 he2
      rcases List.mem_cons.mp he2 with he0 | he0
      · subst he0
        intro hin
        exact hmono2 _ _ (hdone1 hin)
      · exact hdone2 e2 he0

theorem getDN_set_self (p : List Nat) (d v : Nat) (hd : d < p.length) :
    (p.set d v).getD d 0 = v := by
  rw [List.getD_eq_getElem?_getD, List.getElem?_set_self hd]
  rfl

theorem getDN_set_ne (p : List Nat) {d i : Nat} (v : Nat) (h : d ≠ i) :
    (p.set d v).getD i 0 = p.getD i 0 := by
  rw [List.getD_eq_getElem?_getD, List.getElem?_set_ne h, ← List.getD_eq_getElem?_getD]

theorem set_getD_self (p : List Nat) (d : Nat) (hd : d < p.length) :
    p.set d (p.getD d 0) = p := by
  induction p generalizing d with
  | nil => simp at hd
  | cons x xs ih =>
    cases d with
    | zero => simp
    | succ d =>
      simp only [List.set_cons_succ, List.cons.injEq, true_and]
      have : (x :: xs).getD (d + 1) 0 = xs.getD d 0 := by simp
      rw [this]
      exact ih d (by simpa using hd)

theorem sum_set_lt (p : List Nat) (d v : Nat) (hd : d < p.length)
    (hv : v < p.getD d 0) : (p.set d v).sum < p.sum := by
  induction p generalizing d with
  | nil => simp at hd
  | cons x xs ih =>
    cases d with
    | zero =>
      simp only [List.set_cons_zero, List.sum_cons]
      have : (x :: xs).getD 0 0 = x := by simp
      rw [this] at hv
      omega
    | succ d =>
      simp only [List.set_cons_succ, List.sum_cons]
      have : (x :: xs).getD (d + 1) 0 = xs.getD d 0 := by simp
      rw [this] at hv
      have := ih d (by simpa using hd) hv
      omega

theorem inB_set (lengths : List Nat) (p : Pt) (hp : InB lengths p) (d v : Nat)
    (hv : v < lengths.getD d 0) : InB lengths (p.set d v) := by
  refine ⟨by rw [List.length_set]; exact hp.1, ?_⟩
  intro i hi
  by_cases hdi : d = i
  · subst hdi
    rw [getDN_set_self p d v (by rw [hp.1]; exact hi)]
    exact hv
  · rw [getDN_set_ne p v hdi]
    exact hp.2 i hi

theorem zeroPt_inB (lengths : List Nat) (hpos : ∀ l ∈ lengths, 1 ≤ l) :
    InB lengths (List.replicate lengths.length 0) := by
  refine ⟨List.length_replicate _ _, ?_⟩
  intro i hi
  have h0 : (List.replicate lengths.length (0 : Nat)).getD i 0 = 0 := by
    rw [List.getD_eq_getElem?_getD, List.getElem?_replicate]
    by_cases h : i < lengths.length <;> simp [h]
  rw [h0]
  have : lengths.getD i 0 ∈ lengths := by
    rw [List.getD_eq_getElem (lengths) 0 hi]
    exact List.getElem_mem hi
  exact hpos _ this

theorem gridStep_symm (lengths : List Nat) {x y : Pt} (h : GridStep lengths x y) :
    GridStep lengths y x := h.elim Or.inr Or.inl

theorem gridConn_symm (lengths : List Nat) {x y : Pt} (h : GridConn lengths x y) :
    GridConn lengths y x :=
  Relation.ReflTransGen.symmetric (fun _ _ => gridStep_symm lengths) h

/-- Every in-bounds cell is grid-connected to the all-zero cell. -/
theorem gridConn_zero (lengths : List Nat) (p : Pt) (hp : InB lengths p) :
    GridConn lengths p (List.replicate lengths.length 0) := by
  generalize hs : p.sum = n
  induction n using Nat.strong_induction_on generalizing p with
  | _ n ih =>
    rcases Nat.eq_zero_or_pos n with h0 | h0
    · subst h0
      have hall : ∀ x ∈ p, x = 0 := List.sum_eq_zero_iff.mp hs
      have : p = List.replicate lengths.length 0 :=
        List.eq_replicate.mpr ⟨hp.1, hall⟩
      rw [this]
      exact Relation.ReflTransGen.refl
    · have hex : ∃ d, d < p.length ∧ 0 < p.getD d 0 := by
        by_contra hno
        push_neg at hno
        have hall : ∀ x ∈ p, x = 0 := by
          intro x hx
          obtain ⟨i, hi, hxi⟩ := List.getElem_of_mem hx
          have := hno i hi
          rw [List.getD_eq_getElem p 0 hi] at this
          omega
        rw [List.sum_eq_zero_iff.mpr hall] at hs
        omega
      obtain ⟨d, hd, hdpos⟩ := hex
      have hdl : d < lengths.length := by rw [← hp.1]; exact hd
      set q := p.set d (p.getD d 0 - 1) with hq_def
      have hqb : InB lengths q := by
        apply inB_set lengths p hp
        have := hp.2 d hdl
        omega
      have hqsum : q.sum < p.sum := sum_set_lt p d _ hd (by omega)
      have hstep : GridStep lengths p q := by
        right
        refine ⟨hqb, hp, d, hdl, ?_⟩
        show p = q.set d (q.getD d 0 + 1)
        rw [hq_def, getDN_set_self p d _ hd, List.set_set]
        have : p.getD d 0 - 1 + 1 = p.getD d 0 := by omega
        rw [this, set_getD_self p d hd]
      exact Relation.ReflTransGen.head hstep
        (ih q.sum (by omega) q hqb rfl)

/-- Running Maze::new with positive lengths returns normally; the final
state satisfies the generation invariant and merges the classes of every
grid edge. -/
theorem maze_new_run (lengths : List Nat) (rng : Nat → Nat)
    (hpos : ∀ l ∈ lengths, 1 ≤ l) :
    ∃ st2, Maze.new lengths rng = some ⟨st2.walks, lengths⟩ ∧ GenInv lengths st2 ∧
      ∀ a b : Pt, GridStep lengths a b →
        find st2.uf (wrap_index lengths a) = find st2.uf (wrap_index lengths b) := by
  have hcells := buildCells_eq lengths hpos
  have hperm := sortPending_perm (pendingList (cellCount lengths) lengths.length rng)
  have hbounds : ∀ e ∈ sortPending (pendingList (cellCount lengths) lengths.length rng),
      e.2.1 < cellCount lengths ∧ e.2.2 < lengths.length := by
    intro e he
    exact pendingList_mem_bounds (hperm.mem_iff.mp he)
  obtain ⟨st2, hfold, hinv2, hmono, hsub, hdone⟩ :=
    genFold_inv lengths hpos
      (sortPending (pendingList (cellCount lengths) lengths.length rng))
      ⟨List.replicate (cellCount lengths) none, []⟩ hbounds (genInv_init lengths)
  refine ⟨st2, ?_, hinv2, ?_⟩
  · rw [Maze.new, hcells]
    show (match genFold lengths
        ((List.range (cellCount lengths)).map (fun i => (decode lengths i, i)))
        ⟨List.replicate (cellCount lengths) none, []⟩
        (sortPending (pendingList (cellCount lengths) lengths.length rng)) with
      | some st => some (⟨st.walks, lengths⟩ : Maze)
      | none => none) = some ⟨st2.walks, lengths⟩
    rw [hfold]
  · intro a b hstep
    rcases hstep with hv | hv
    · obtain ⟨ha, hb, d, hd, hab⟩ := hv
      have hidx : wrap_index lengths a < cellCount lengths := wrap_lt lengths a ha
      have hmem : (rng (wrap_index lengths a * lengths.length + d),
          wrap_index lengths a, d) ∈
            sortPending (pendingList (cellCount lengths) lengths.length rng) :=
        hperm.mem_iff.mpr (pendingList_mem rng hidx hd)
      have hda : decode lengths (wrap_index lengths a) = a := decode_wrap lengths a ha
      have h2 := hdone _ hmem
      dsimp only at h2
      dsimp only at hab
      rw [hda, ← hab] at h2
      exact h2 hb
    · obtain ⟨hb, ha, d, hd, hab⟩ := hv
      have hidx : wrap_index lengths b < cellCount lengths := wrap_lt lengths b hb
      have hmem : (rng (wrap_index lengths b * lengths.length + d),
          wrap_index lengths b, d) ∈
            sortPending (pendingList (cellCount lengths) lengths.length rng) :=
        hperm.mem_iff.mpr (pendingList_mem rng hidx hd)
      have hdb : decode lengths (wrap_index lengths b) = b := decode_wrap lengths b hb
      have h2 := hdone _ hmem
      dsimp only at h2
      dsimp only at hab
      rw [hdb, ← hab] at h2
      exact (h2 ha).symm

theorem gridConn_find_eq {lengths : List Nat} {uf : List (Option Nat)}
    (hadj : ∀ a b : Pt, GridStep lengths a b →
      find uf (wrap_index lengths a) = find uf (wrap_index lengths b))
    {a b : Pt} (h : GridConn lengths a b) :
    find uf (wrap_index lengths a) = find uf (wrap_index lengths b) := by
  induction h with
  | refl => rfl
  | tail hxz hstep ih => exact ih.trans (hadj _ _ hstep)

/-- C1.  For every lengths vector with every component at least 1 and
every stream of random draws, Maze::new returns normally and the walk set
it builds is a spanning tree of the grid: a duplicate-free edge list of
exactly cellCount - 1 edges that connects every pair of in-bounds cells. -/
theorem maze_new_spanning_tree (lengths : List Nat) (rng : Nat → Nat)
    (hpos : ∀ l ∈ lengths, 1 ≤ l) :
    ∃ m, Maze.new lengths rng = some m ∧ m.walks.Nodup ∧
      m.walks.length = cellCount lengths - 1 ∧
      ∀ a b : Pt, InB lengths a → InB lengths b → WalkConn m.walks a b := by
  obtain ⟨st2, hnew, hinv, hadj⟩ := maze_new_run lengths rng hpos
  have hfindeq : ∀ a b : Pt, InB lengths a → InB lengths b →
      find st2.uf (wrap_index lengths a) = find st2.uf (wrap_index lengths b) := by
    intro a b ha hb
    exact (gridConn_find_eq hadj (gridConn_zero lengths a ha)).trans
      (gridConn_find_eq hadj (gridConn_symm lengths (gridConn_zero lengths b hb)))
  have hconn : ∀ a b : Pt, InB lengths a → InB lengths b → WalkConn st2.walks a b :=
    fun a b ha hb => (hinv.hclass a b ha hb).mp (hfindeq a b ha hb)
  have hzero := zeroPt_inB lengths hpos
  have hwz : wrap_index lengths (List.replicate lengths.length 0) < st2.uf.length := by
    rw [hinv.hlen]
    exact wrap_lt _ _ hzero
  have hr0mem : find st2.uf (wrap_index lengths (List.replicate lengths.length 0)) ∈
      rootSet st2.uf := find_mem_rootSet hinv.hwf hwz
  have huniq : ∀ s ∈ rootSet st2.uf,
      s = find st2.uf (wrap_index lengths (List.replicate lengths.length 0)) := by
    intro s hs
    rw [rootSet, Finset.mem_filter, Finset.mem_range] at hs
    have hsn : s < cellCount lengths := by rw [← hinv.hlen]; exact hs.1
    have hfs : find st2.uf s = s := find_root_fixed hs.2
    have hdec : InB lengths (decode lengths s) := decode_inB lengths s hsn
    have heq := hfindeq (decode lengths s) (List.replicate lengths.length 0) hdec hzero
    rw [wrap_decode lengths s hsn, hfs] at heq
    exact heq
  have hcard : (rootSet st2.uf).card = 1 :=
    Finset.card_eq_one.mpr ⟨_, Finset.eq_singleton_iff_unique_mem.mpr ⟨hr0mem, huniq⟩⟩
  refine ⟨⟨st2.walks, lengths⟩, hnew, hinv.hnodup, ?_, hconn⟩
  have hcount := hinv.hcount
  rw [hcard] at hcount
  show st2.walks.length = cellCount lengths - 1
  omega

/-- A walk list in which every edge is a bridge induces an acyclic graph. -/
theorem forest_acyclic (walks : List (Pt × Pt))
    (hforest : ∀ e ∈ walks, ¬ WalkConn (walks.erase e) e.1 e.2) :
    (mazeGraph walks).IsAcyclic := by
  rw [SimpleGraph.isAcyclic_iff_forall_edge_isBridge]
  intro e he
  induction e with
  | _ x y =>
    rw [SimpleGraph.mem_edgeSet] at he
    rw [SimpleGraph.isBridge_iff]
    refine ⟨he, ?_⟩
    intro hreach
    rw [SimpleGraph.reachable_iff_reflTransGen] at hreach
    obtain ⟨hne, hstep⟩ := he
    have hstep_map : ∀ u v : Pt,
        (mazeGraph walks \ SimpleGraph.fromEdgeSet {s(x, y)}).Adj u v →
        WalkStep (walks.erase (x, y)) u v ∧ WalkStep (walks.erase (y, x)) u v := by
      intro u v hadj
      rw [SimpleGraph.sdiff_adj] at hadj
      obtain ⟨⟨huv, hsteps⟩, hnot⟩ := hadj
      rw [SimpleGraph.fromEdgeSet_adj] at hnot
      have hsym : ¬ ((u = x ∧ v = y) ∨ (u = y ∧ v = x)) := by
        intro hc
        exact hnot ⟨Set.mem_singleton_iff.mpr (Sym2.eq_iff.mpr hc), huv⟩
      rcases hsteps with hm | hm
      · refine ⟨Or.inl ((List.mem_erase_of_ne ?_).mpr hm),
          Or.inl ((List.mem_erase_of_ne ?_).mpr hm)⟩
        · intro hc
          exact hsym (Or.inl ⟨congrArg Prod.fst hc, congrArg Prod.snd hc⟩)
        · intro hc
          exact hsym (Or.inr ⟨congrArg Prod.fst hc, congrArg Prod.snd hc⟩)
      · refine ⟨Or.inr ((List.mem_erase_of_ne ?_).mpr hm),
          Or.inr ((List.mem_erase_of_ne ?_).mpr hm)⟩
        · intro hc
          exact hsym (Or.inr ⟨congrArg Prod.snd hc, congrArg Prod.fst hc⟩)
        · intro hc
          exact hsym (Or.inl ⟨congrArg Prod.snd hc, congrArg Prod.fst hc⟩)
    rcases hstep with hmem | hmem
    · exact hforest (x, y) hmem
        (Relation.ReflTransGen.mono (fun u v h => (hstep_map u v h).1) hreach)
    · exact hforest (y, x) hmem
        (walkConn_symm _
          (Relation.ReflTransGen.mono (fun u v h => (hstep_map u v h).2) hreach))

/-- C2.  For every lengths vector with every component at least 1 and every
stream of random draws, the undirected graph induced on cells by the walk
set of the maze Maze::new builds contains no cycle. -/
theorem maze_new_acyclic (lengths : List Nat) (rng : Nat → Nat)
    (hpos : ∀ l ∈ lengths, 1 ≤ l) (m : Maze)
    (hm : Maze.new lengths rng = some m) : (mazeGraph m.walks).IsAcyclic := by
  obtain ⟨st2, hnew, hinv, _⟩ := maze_new_run lengths rng hpos
  rw [hnew] at hm
  cases hm
  exact forest_acyclic st2.walks hinv.hforest

/-- With a zero dimension length the generation loop body never runs:
the cell count is zero, so both the cells map and the heap are empty. -/
theorem maze_new_zero (lengths : List Nat) (rng : Nat → Nat) (h0 : 0 ∈ lengths) :
    Maze.new lengths rng = some ⟨[], lengths⟩ := by
  have hn0 : cellCount lengths = 0 := List.prod_eq_zero h0
  have hb : buildCells lengths (cellCount lengths) = some [] := by rw [hn0]; rfl
  have hp : pendingList (cellCount lengths) lengths.length rng = [] := by
    rw [hn0]; rfl
  unfold Maze.new
  rw [hb, hp]
  rfl

/-- The bounds loop never panics when every visited index is inside all
three arrays, and then returns exactly the conjunction of the per-index
bounds tests. -/
theorem checkBoundsLoop_eq (lengths a b : Pt) (is : List Nat)
    (hacc : ∀ i ∈ is, i < lengths.length ∧ i < a.length ∧ i < b.length) :
    checkBoundsLoop lengths a b is =
      some (decide (∀ i ∈ is,
        a.getD i 0 < lengths.getD i 0 ∧ b.getD i 0 < lengths.getD i 0)) := by
  induction is with
  | nil => simp [checkBoundsLoop]
  | cons i rest ih =>
    obtain ⟨hil, hia, hib⟩ := hacc i (List.mem_cons_self _ _)
    have hl : lengths.get? i = some (lengths.getD i 0) := by
      rw [List.get?_eq_getElem?, List.getElem?_eq_getElem hil,
        List.getD_eq_getElem lengths 0 hil]
    have hA : a.get? i = some (a.getD i 0) := by
      rw [List.get?_eq_getElem?, List.getElem?_eq_getElem hia,
        List.getD_eq_getElem a 0 hia]
    have hB : b.get? i = some (b.getD i 0) := by
      rw [List.get?_eq_getElem?, List.getElem?_eq_getElem hib,
        List.getD_eq_getElem b 0 hib]
    simp only [checkBoundsLoop, hl, hA, hB]
    by_cases hfail : a.getD i 0 ≥ lengths.getD i 0 ∨ b.getD i 0 ≥ lengths.getD i 0
    · rw [if_pos hfail]
      have hno : ¬ (∀ j ∈ i :: rest,
          a.getD j 0 < lengths.getD j 0 ∧ b.getD j 0 < lengths.getD j 0) := by
        intro hall
        have := hall i (List.mem_cons_self _ _)
        omega
      rw [decide_eq_false hno]
    · rw [if_neg hfail, ih (fun j hj => hacc j (List.mem_cons.mpr (Or.inr hj)))]
      have hok : a.getD i 0 < lengths.getD i 0 ∧ b.getD i 0 < lengths.getD i 0 := by
        omega
      congr 1
      rw [decide_eq_decide, List.forall_mem_cons]
      constructor
      · intro h
        exact ⟨hok, h⟩
      · intro h
        exact h.2

/-- Maze::check_pair on points long enough for all index accesses: no
panic; the result is None on a bounds failure and otherwise membership of
the pair in the walk set in either direction. -/
theorem check_pair_eq (m : Maze) (a b : Pt)
    (hal : m.lengths.length ≤ a.length) (hbl : m.lengths.length ≤ b.length) :
    check_pair m a b =
      some (if ∀ i < m.lengths.length,
          a.getD i 0 < m.lengths.getD i 0 ∧ b.getD i 0 < m.lengths.getD i 0
        then some (decide ((a, b) ∈ m.walks ∨ (b, a) ∈ m.walks))
        else none) := by
  have hacc : ∀ i ∈ List.range m.lengths.length,
      i < m.lengths.length ∧ i < a.length ∧ i < b.length := by
    intro i hi
    have := List.mem_range.mp hi
    omega
  rw [check_pair, checkBoundsLoop_eq m.lengths a b _ hacc]
  by_cases hok : ∀ i < m.lengths.length,
      a.getD i 0 < m.lengths.getD i 0 ∧ b.getD i 0 < m.lengths.getD i 0
  · have : (∀ i ∈ List.range m.lengths.length,
        a.getD i 0 < m.lengths.getD i 0 ∧ b.getD i 0 < m.lengths.getD i 0) := by
      intro i hi
      exact hok i (List.mem_range.mp hi)
    rw [decide_eq_true_eq.mpr this]
    rw [if_pos hok]
  · have : ¬ (∀ i ∈ List.range m.lengths.length,
        a.getD i 0 < m.lengths.getD i 0 ∧ b.getD i 0 < m.lengths.getD i 0) := by
      intro hall
      exact hok (fun i hi => hall i (List.mem_range.mpr hi))
    rw [decide_eq_false this, if_neg hok]

theorem getD_of_getQ {p : Pt} {d v : Nat} (h : p.get? d = some v) :
    p.getD d 0 = v := by
  rw [List.getD_eq_getElem?_getD, ← List.get?_eq_getElem?, h]
  rfl

theorem lt_length_of_getQ {p : Pt} {d v : Nat} (h : p.get? d = some v) :
    d < p.length := by
  by_contra hge
  rw [List.get?_eq_none.mpr (by omega)] at h
  cases h

theorem getD_mem {p : Pt} {d : Nat} (hd : d < p.length) : p.getD d 0 ∈ p := by
  rw [List.getD_eq_getElem p 0 hd]
  exact List.getElem_mem hd

/-- C10.  Maze::can_move is total on every coordinate of the right arity
(the arity is enforced by the Rust array type): for every maze, every
point, and every dimension index, including out-of-range indices and
out-of-bounds or maximal coordinates, the call returns a value and does
not panic; the maze itself is immutable throughout (the embedding is a
pure function of the maze). -/
theorem can_move_total (m : Maze) (point : Pt) (dimension : Nat)
    (hlen : point.length = m.lengths.length) :
    ∃ r : Option Bool, can_move m point dimension = some r := by
  cases hget : point.get? dimension with
  | none => exact ⟨none, by simp only [can_move, hget]⟩
  | some v =>
    by_cases hv : v + 1 ≤ 255
    · have hbl : m.lengths.length ≤ (point.set dimension (v + 1)).length := by
        rw [List.length_set]
        omega
      have heq := check_pair_eq m point (point.set dimension (v + 1)) (by omega) hbl
      exact ⟨_, by simp only [can_move, hget, if_pos hv]; exact heq⟩
    · exact ⟨none, by simp only [can_move, hget, if_neg hv]⟩

/-- C4.  can_move returns the Rust value None exactly when the dimension
index is out of range, or the coordinate component is 255 so the u8
increment overflows, or some component of the point or of the incremented
neighbour reaches the matching dimension length; in particular it returns
None whenever the component equals length - 1 and whenever it is at least
the length. -/
theorem can_move_none_iff (m : Maze) (point : Pt) (d : Nat)
    (hlen : point.length = m.lengths.length)
    (hp255 : ∀ x ∈ point, x ≤ 255) :
    (can_move m point d = some none ↔
      (m.lengths.length ≤ d ∨ point.getD d 0 = 255 ∨
        ∃ i < m.lengths.length,
          m.lengths.getD i 0 ≤ point.getD i 0 ∨
          m.lengths.getD i 0 ≤ (point.set d (point.getD d 0 + 1)).getD i 0)) ∧
    (∀ L, m.lengths.getD d 0 = L →
      (point.getD d 0 = L - 1 ∨ L ≤ point.getD d 0) →
      can_move m point d = some none) := by
  have main : can_move m point d = some none ↔
      (m.lengths.length ≤ d ∨ point.getD d 0 = 255 ∨
        ∃ i < m.lengths.length,
          m.lengths.getD i 0 ≤ point.getD i 0 ∨
          m.lengths.getD i 0 ≤ (point.set d (point.getD d 0 + 1)).getD i 0) := by
    cases hget : point.get? d with
    | none =>
      have hd : point.length ≤ d := List.get?_eq_none.mp hget
      simp only [can_move, hget]
      constructor
      · intro _
        left
        omega
      · intro _
        trivial
    | some v =>
      have hd : d < point.length := lt_length_of_getQ hget
      have hdv : point.getD d 0 = v := getD_of_getQ hget
      have hv255 : v ≤ 255 := hp255 v (List.get?_mem hget)
      by_cases hv : v + 1 ≤ 255
      · have hbl : m.lengths.length ≤ (point.set d (v + 1)).length := by
          rw [List.length_set]
          omega
        simp only [can_move, hget, if_pos hv,
          check_pair_eq m point (point.set d (v + 1)) (by omega) hbl]
        by_cases hok : ∀ i < m.lengths.length,
            point.getD i 0 < m.lengths.getD i 0 ∧
            (point.set d (v + 1)).getD i 0 < m.lengths.getD i 0
        · rw [if_pos hok]
          constructor
          · intro hcontra
            simp at hcontra
          · intro hcases
            exfalso
            rcases hcases with h1 | h2 | ⟨i, hi, h3⟩
            · omega
            · omega
            · have := hok i hi
              rw [hdv] at h3
              omega
        · rw [if_neg hok]
          constructor
          · intro _
            push_neg at hok
            obtain ⟨i, hi, hfail⟩ := hok
            right; right
            refine ⟨i, hi, ?_⟩
            rw [hdv]
            omega
          · intro _
            rfl
      · simp only [can_move, hget, if_neg hv]
        constructor
        · intro _
          right; left
          omega
        · intro _
          trivial
  refine ⟨main, ?_⟩
  intro L hL hcase
  apply main.mpr
  by_cases hd : d < m.lengths.length
  · right; right
    refine ⟨d, hd, ?_⟩
    have hdp : d < point.length := by omega
    rw [getDN_set_self point d _ hdp]
    omega
  · left
    omega

/-- C3.  For an in-bounds point whose forward neighbour along an in-range
dimension is also in bounds, can_move answers exactly membership of the
pair in the walk set, in either stored direction: Some(true) precisely on
membership, Some(false) otherwise. -/
theorem can_move_walk_iff (m : Maze) (point : Pt) (d : Nat)
    (hlen : point.length = m.lengths.length)
    (hl255 : ∀ l ∈ m.lengths, l ≤ 255)
    (hd : d < m.lengths.length)
    (hp : InB m.lengths point)
    (hq : InB m.lengths (point.set d (point.getD d 0 + 1))) :
    (can_move m point d = some (some true) ↔
      ((point, point.set d (point.getD d 0 + 1)) ∈ m.walks ∨
        (point.set d (point.getD d 0 + 1), point) ∈ m.walks)) ∧
    (¬ ((point, point.set d (point.getD d 0 + 1)) ∈ m.walks ∨
        (point.set d (point.getD d 0 + 1), point) ∈ m.walks) →
      can_move m point d = some (some false)) := by
  have hdp : d < point.length := by omega
  have hget : point.get? d = some (point.getD d 0) := by
    rw [List.get?_eq_getElem?, List.getElem?_eq_getElem hdp,
      List.getD_eq_getElem point 0 hdp]
  have hqd : (point.set d (point.getD d 0 + 1)).getD d 0 = point.getD d 0 + 1 :=
    getDN_set_self point d _ hdp
  have hlq : m.lengths.getD d 0 ≤ 255 := hl255 _ (getD_mem (by omega))
  have hv : point.getD d 0 + 1 ≤ 255 := by
    have := hq.2 d hd
    rw [hqd] at this
    omega
  have hbl : m.lengths.length ≤ (point.set d (point.getD d 0 + 1)).length := by
    rw [List.length_set]
    omega
  have hok : ∀ i < m.lengths.length,
      point.getD i 0 < m.lengths.getD i 0 ∧
      (point.set d (point.getD d 0 + 1)).getD i 0 < m.lengths.getD i 0 := by
    intro i hi
    exact ⟨hp.2 i hi, hq.2 i hi⟩
  have heval : can_move m point d =
      some (some (decide ((point, point.set d (point.getD d 0 + 1)) ∈ m.walks ∨
        (point.set d (point.getD d 0 + 1), point) ∈ m.walks))) := by
    simp only [can_move, hget, if_pos hv,
      check_pair_eq m point (point.set d (point.getD d 0 + 1)) (by omega) hbl]
    rw [if_pos hok]
  rw [heval]
  constructor
  · constructor
    · intro h
      have := Option.some_injective _ (Option.some_injective _ h)
      exact of_decide_eq_true this
    · intro h
      rw [decide_eq_true h]
  · intro h
    rw [decide_eq_false h]

/-- C9.  With a zero component among the lengths, Maze::new still returns
normally: the cell count is zero, the walk set is empty, and every
subsequent can_move query on a point of the right arity answers None,
because the bounds check against the zero length can never pass. -/
theorem maze_new_zero_length (lengths : List Nat) (rng : Nat → Nat)
    (h0 : 0 ∈ lengths) :
    ∃ m, Maze.new lengths rng = some m ∧ m.walks = [] ∧
      ∀ (p : Pt) (d : Nat), p.length = lengths.length →
        can_move m p d = some none := by
  refine ⟨⟨[], lengths⟩, maze_new_zero lengths rng h0, rfl, ?_⟩
  intro p d hplen
  obtain ⟨i0, hi0, hzero⟩ := List.getElem_of_mem h0
  have hgz : lengths.getD i0 0 = 0 := by
    rw [List.getD_eq_getElem lengths 0 hi0, hzero]
  cases hget : p.get? d with
  | none => simp only [can_move, hget]
  | some v =>
    by_cases hv : v + 1 ≤ 255
    · have hbl : lengths.length ≤ (p.set d (v + 1)).length := by
        rw [List.length_set]
        omega
      have hm : (⟨[], lengths⟩ : Maze).lengths = lengths := rfl
      simp only [can_move, hget, if_pos hv,
        check_pair_eq ⟨[], lengths⟩ p (p.set d (v + 1)) (by rw [hm]; omega) (by rw [hm]; exact hbl)]
      rw [if_neg]
      intro hall
      have := hall i0 hi0
      omega
    · simp only [can_move, hget, if_neg hv]

theorem map_congr_mem {α β : Type} (l : List α) (f g : α → β)
    (h : ∀ a ∈ l, f a = g a) : l.map f = l.map g := by
  induction l with
  | nil => rfl
  | cons x xs ih =>
    simp only [List.map_cons]
    rw [h x (List.mem_cons_self _ _), ih (fun a ha => h a (List.mem_cons.mpr (Or.inr ha)))]

theorem flatMap_congr_mem {α β : Type} (l : List α) (f g : α → List β)
    (h : ∀ a ∈ l, f a = g a) : l.flatMap f = l.flatMap g := by
  induction l with
  | nil => rfl
  | cons x xs ih =>
    simp only [List.flatMap_cons]
    rw [h x (List.mem_cons_self _ _), ih (fun a ha => h a (List.mem_cons.mpr (Or.inr ha)))]

/-- C5.  Maze::new is deterministic in its random source: two draw streams
that agree on every draw the generator consumes (one per cell and
dimension) produce identical mazes, walk set included. -/
theorem maze_new_deterministic (lengths : List Nat) (r1 r2 : Nat → Nat)
    (h : ∀ k < cellCount lengths * lengths.length, r1 k = r2 k) :
    Maze.new lengths r1 = Maze.new lengths r2 := by
  have hp : pendingList (cellCount lengths) lengths.length r1 =
      pendingList (cellCount lengths) lengths.length r2 := by
    rw [pendingList, pendingList]
    apply flatMap_congr_mem
    intro index hindex
    apply map_congr_mem
    intro dim hdim
    have hin : index < cellCount lengths := List.mem_range.mp hindex
    have hdn : dim < lengths.length := List.mem_range.mp hdim
    have h1 : (index + 1) * lengths.length = index * lengths.length + lengths.length := by
      ring
    have h2 : (index + 1) * lengths.length ≤ cellCount lengths * lengths.length :=
      Nat.mul_le_mul_right _ (by omega)
    rw [h (index * lengths.length + dim) (by omega)]
  unfold Maze.new
  rw [hp]

/-- C6 counterexample.  With a zero dimension length the Rust unwrap_index
panics on the remainder by zero instead of returning None: at lengths [0]
and index 0 (which is at least the cell count 0) the embedded call gives
the panic marker, not the embedded Rust None. -/
theorem unwrap_index_zero_panics :
    cellCount [0] ≤ 0 ∧ unwrap_index [0] 0 = none ∧
      unwrap_index [0] 0 ≠ some none := by
  refine ⟨by decide, by decide, by decide⟩

/-- C6 (amended).  Every index below the cell count decodes to a
coordinate whose mixed-radix re-encoding is the index again; and provided
every dimension length is nonzero (otherwise the Rust code panics on a
remainder by zero), every index at or above the cell count decodes to the
Rust value None. -/
theorem unwrap_index_bijection (lengths : List Nat) (index : Nat) :
    (index < cellCount lengths →
      ∃ p, unwrap_index lengths index = some (some p) ∧
        wrap_index lengths p = index) ∧
    ((∀ l ∈ lengths, 1 ≤ l) → cellCount lengths ≤ index →
      unwrap_index lengths index = some none) := by
  constructor
  · intro hlt
    have hpos : ∀ l ∈ lengths, 1 ≤ l := by
      intro l hl
      by_contra h0
      push_neg at h0
      have hl0 : l = 0 := by omega
      have : cellCount lengths = 0 := List.prod_eq_zero (hl0 ▸ hl)
      omega
    rw [unwrap_index_eq lengths index hpos, if_pos hlt]
    exact ⟨decode lengths index, rfl, wrap_decode lengths index hlt⟩
  · intro hpos hge
    rw [unwrap_index_eq lengths index hpos, if_neg (by omega)]

/-- C7.  try_merge returns true and attaches the root of b below the root
of a exactly when the two roots reached by chasing parent links differ;
with equal roots it returns false and leaves the forest untouched.  The
chain hypotheses say the parent chases terminate within the fuel the
embedding gives the unbounded Rust recursion. -/
theorem try_merge_spec (uf : List (Option Nat)) (a b ra rb ka kb : Nat)
    (ha : Chain uf a ra ka) (hka : ka ≤ uf.length)
    (hb : Chain uf b rb kb) (hkb : kb ≤ uf.length) :
    (ra = rb → try_merge uf a b = (false, uf)) ∧
    (ra ≠ rb → try_merge uf a b = (true, uf.set rb (some ra))) := by
  have hga : get_root uf uf.length a = ra := get_root_of_chain ha _ hka
  have hgb : get_root uf uf.length b = rb := get_root_of_chain hb _ hkb
  constructor
  · intro he
    simp only [try_merge, hga, hgb]
    rw [if_pos he]
  · intro he
    simp only [try_merge, hga, hgb]
    rw [if_neg he]

/-- C8.  Every pair recorded in the walk set of a generated maze is a
valid grid edge: both endpoints in bounds and the second exactly one step
beyond the first along a single dimension. -/
theorem maze_new_edges_valid (lengths : List Nat) (rng : Nat → Nat) (m : Maze)
    (hm : Maze.new lengths rng = some m) (e : Pt × Pt) (he : e ∈ m.walks) :
    InB lengths e.1 ∧ InB lengths e.2 ∧
      ∃ d < lengths.length, e.2 = e.1.set d (e.1.getD d 0 + 1) := by
  by_cases hpos : ∀ l ∈ lengths, 1 ≤ l
  · obtain ⟨st2, hnew, hinv, _⟩ := maze_new_run lengths rng hpos
    rw [hnew] at hm
    cases hm
    exact hinv.hedges e he
  · push_neg at hpos
    obtain ⟨l, hl, hl0⟩ := hpos
    have hl0e : l = 0 := by omega
    have h0 : 0 ∈ lengths := hl0e ▸ hl
    rw [maze_new_zero lengths rng h0] at hm
    cases hm
    simp at he

theorem maze_new_spanning_tree_witness :
    ∃ m, Maze.new [2] (fun _ => 0) = some m ∧ m.walks.Nodup ∧
      m.walks.length = cellCount [2] - 1 ∧
      ∀ a b : Pt, InB [2] a → InB [2] b → WalkConn m.walks a b :=
  maze_new_spanning_tree [2] (fun _ => 0) (by decide)

theorem maze_new_acyclic_witness :
    (mazeGraph (Maze.mk [([0], [1])] [2]).walks).IsAcyclic :=
  maze_new_acyclic [2] (fun _ => 0) (by decide) (Maze.mk [([0], [1])] [2]) (by decide)

theorem can_move_walk_iff_witness :
    (can_move (Maze.mk [([0], [1])] [2]) [0] 0 = some (some true) ↔
      (([0], List.set [0] 0 (List.getD [0] 0 0 + 1)) ∈ (Maze.mk [([0], [1])] [2]).walks ∨
        (List.set [0] 0 (List.getD [0] 0 0 + 1), [0]) ∈ (Maze.mk [([0], [1])] [2]).walks)) ∧
    (¬ (([0], List.set [0] 0 (List.getD [0] 0 0 + 1)) ∈ (Maze.mk [([0], [1])] [2]).walks ∨
        (List.set [0] 0 (List.getD [0] 0 0 + 1), [0]) ∈ (Maze.mk [([0], [1])] [2]).walks) →
      can_move (Maze.mk [([0], [1])] [2]) [0] 0 = some (some false)) :=
  can_move_walk_iff (Maze.mk [([0], [1])] [2]) [0] 0 (by decide) (by decide)
    (by decide) (by decide) (by decide)

theorem can_move_none_iff_witness :
    (can_move (Maze.mk [([0], [1])] [2]) [1] 0 = some none ↔
      ((Maze.mk [([0], [1])] [2]).lengths.length ≤ 0 ∨ List.getD [1] 0 0 = 255 ∨
        ∃ i < (Maze.mk [([0], [1])] [2]).lengths.length,
          (Maze.mk [([0], [1])] [2]).lengths.getD i 0 ≤ List.getD [1] i 0 ∨
          (Maze.mk [([0], [1])] [2]).lengths.getD i 0 ≤
            (List.set [1] 0 (List.getD [1] 0 0 + 1)).getD i 0)) ∧
    (∀ L, (Maze.mk [([0], [1])] [2]).lengths.getD 0 0 = L →
      (List.getD [1] 0 0 = L - 1 ∨ L ≤ List.getD [1] 0 0) →
      can_move (Maze.mk [([0], [1])] [2]) [1] 0 = some none) :=
  can_move_none_iff (Maze.mk [([0], [1])] [2]) [1] 0 (by decide) (by decide)

theorem maze_new_deterministic_witness :
    Maze.new [2] (fun _ => 0) = Maze.new [2] (fun _ => 0) :=
  maze_new_deterministic [2] (fun _ => 0) (fun _ => 0) (fun _ _ => rfl)

theorem unwrap_index_bijection_witness :
    (∃ p, unwrap_index [2] 1 = some (some p) ∧ wrap_index [2] p = 1) ∧
      unwrap_index [2] 5 = some none :=
  ⟨(unwrap_index_bijection [2] 1).1 (by decide),
    (unwrap_index_bijection [2] 5).2 (by decide) (by decide)⟩

theorem try_merge_spec_witness :
    try_merge [none, none] 0 1 =
      (true, ([none, none] : List (Option Nat)).set 1 (some 0)) :=
  (try_merge_spec [none, none] 0 1 0 1 0 0 (Chain.root 0 rfl) (by decide)
    (Chain.root 1 rfl) (by decide)).2 (by decide)

theorem maze_new_edges_valid_witness :
    InB [2] ([0], [1]).1 ∧ InB [2] ([0], [1]).2 ∧
      ∃ d < List.length [2], ([0], [1]).2 =
        List.set ([0], [1]).1 d (List.getD ([0], [1]).1 d 0 + 1) :=
  maze_new_edges_valid [2] (fun _ => 0) (Maze.mk [([0], [1])] [2]) (by decide)
    ([0], [1]) (by decide)

theorem maze_new_zero_length_witness :
    ∃ m, Maze.new [0] (fun _ => 0) = some m ∧ m.walks = [] ∧
      ∀ (p : Pt) (d : Nat), p.length = List.length [0] →
        can_move m p d = some none :=
  maze_new_zero_length [0] (fun _ => 0) (by decide)

theorem can_move_total_witness :
    ∃ r : Option Bool, can_move (Maze.mk [([0], [1])] [2]) [0] 7 = some r :=
  can_move_total (Maze.mk [([0], [1])] [2]) [0] 7 (by decide)

end NothingMoves
